import Mathlib

/-!
Verification of the Solar Panel financial dashboard (src/Home.py).

The script is a single-pass computation: a currency formatter `format_inr`
using the South Asian digit-grouping convention, and a set of closed-form
financial formulas (revenue, loan amortization, net income, ROI, cash flow).
Real-valued amounts are embedded as rationals; Python's `round` (banker's
rounding) and `str` of an integer are modelled explicitly.
-/

namespace Solar

/-- Python's `round` to an integer: round half to even (banker's rounding). -/
def pyRound (q : ℚ) : ℤ :=
  let f := ⌊q⌋
  let d := q - f
  if d < 1 / 2 then f
  else if 1 / 2 < d then f + 1
  else if f % 2 = 0 then f else f + 1

/-- The decimal digit character for `d` (meaningful for `d < 10`). -/
def digitChar (d : ℕ) : Char := Char.ofNat (48 + d)

/-- Recursion kernel of `natToChars`, with explicit fuel (any fuel above the
argument computes the same digits, see `natToCharsGo_congr`); fuel keeps the
recursion structural so that concrete inputs evaluate inside the kernel. -/
def natToCharsGo : ℕ → ℕ → List Char
  | 0, _ => []
  | fuel + 1, n =>
    if n < 10 then [digitChar n]
    else natToCharsGo fuel (n / 10) ++ [digitChar (n % 10)]

/-- Python's `str` of a natural number: its decimal digits, most significant
first.  Satisfies the recurrence `natToChars_eq`. -/
def natToChars (n : ℕ) : List Char := natToCharsGo (n + 1) n

/-- Python's `str` of an integer: a leading minus sign for negatives. -/
def pyIntStr (n : ℤ) : List Char :=
  if n < 0 then '-' :: natToChars n.natAbs else natToChars n.toNat

/-- Recursion kernel of `groupRest`, with explicit fuel (any fuel above the
length of `rest` computes the same groups, see `groupRestGo_congr`). -/
def groupRestGo : ℕ → List Char → List (List Char)
  | 0, rest => if rest = [] then [] else [rest]
  | fuel + 1, rest =>
    if rest.length > 2 then
      groupRestGo fuel (rest.take (rest.length - 2)) ++
        [rest.drop (rest.length - 2)]
    else if rest = [] then [] else [rest]

/-- The loop of `format_inr` (src/Home.py lines 17-22): repeatedly peel the
last two characters of `rest` off as a group while more than two remain;
a nonempty remainder becomes the leftmost group.  The source accumulates
the groups right-to-left and then reverses; this function produces them
directly in left-to-right order.  Satisfies the recurrence `groupRest_eq`. -/
def groupRest (rest : List Char) : List (List Char) :=
  groupRestGo rest.length rest

/-- The string-shaping part of `format_inr` (src/Home.py lines 12-25), on the
decimal string `s`: if it is longer than three characters, split off the last
three as a fixed group, group the remaining leading characters in twos from
the right, and join everything with commas. -/
def inrFormat (s : List Char) : List Char :=
  if s.length > 3 then
    let last3 := s.drop (s.length - 3)
    let rest := s.take (s.length - 3)
    let parts := groupRest rest
    List.intercalate [','] parts ++ ',' :: last3
  else s

/-- `format_inr` (src/Home.py lines 7-26): round the amount, take its decimal
string, group it, and prefix the currency glyph. -/
def format_inr (amount : ℚ) : String :=
  String.mk ('₹' :: inrFormat (pyIntStr (pyRound amount)))

/-! ## FinancialModel (src/Home.py lines 76-109) -/

def revenue_per_day (average_production_per_mw_day rate_per_unit total_mw : ℚ) : ℚ :=
  average_production_per_mw_day * rate_per_unit * total_mw

def revenue_per_year (rpd : ℚ) : ℚ := rpd * 365

def revenue_per_month (rpy : ℚ) : ℚ := rpy / 12

def working_cost_monthly (labor_cost electricity_cost : ℚ) : ℚ :=
  labor_cost + electricity_cost

def working_cost_annual (wcm : ℚ) : ℚ := wcm * 12

def total_cost (total_mw cost_per_mw : ℚ) : ℚ := total_mw * cost_per_mw

def loan_amount (tc debt_percent : ℚ) : ℚ := tc * (debt_percent / 100)

/-- Loan payment (src/Home.py lines 91-94): annuity formula when the rate is
positive, straight-line payoff otherwise. -/
def annual_payment (r loan : ℚ) (n_years : ℕ) : ℚ :=
  if r > 0 then (loan * r) / (1 - (1 + r) ^ (-(n_years : ℤ)))
  else loan / n_years

def monthly_payment (ap : ℚ) : ℚ := ap / 12

def monthly_income (rpm wcm mp : ℚ) : ℚ := rpm - (wcm + mp)

def annual_income (rpy wca ap : ℚ) : ℚ := rpy - (wca + ap)

/-- ROI (src/Home.py line 103): guarded by the truthiness of `total_cost`. -/
def roi (ai tc : ℚ) : ℚ := if tc ≠ 0 then (ai / tc) * 100 else 0

/-- Cash-flow sequence (src/Home.py line 104). -/
def cash_flows (tc ai : ℚ) (n_years : ℕ) : List ℚ :=
  [-tc] ++ List.replicate n_years ai

/-- Running prefix sums with accumulator, modelling `pandas.Series.cumsum`. -/
def cumsumFrom (acc : ℚ) : List ℚ → List ℚ
  | [] => []
  | x :: xs => (acc + x) :: cumsumFrom (acc + x) xs

/-- Cumulative cash flow (src/Home.py line 108). -/
def cumulative_cash_flow (cf : List ℚ) : List ℚ := cumsumFrom 0 cf

/-- The string the dashboard shows for the Annual Net Income metric
(src/Home.py line 142): the builtin `format`, i.e. the default string
conversion of the amount, not `format_inr`.  Modelled at integer amounts,
where Python's `format` yields the plain decimal string. -/
def annualNetIncomeDisplay (ai : ℤ) : String := String.mk (pyIntStr ai)

/-- Digits parsed back to a number, most significant first: the integer a
reader obtains from the digit string once commas and the glyph are removed. -/
def parseDigits (cs : List Char) : ℕ :=
  cs.foldl (fun a c => 10 * a + (c.toNat - 48)) 0

/-- Strip the commas and the currency glyph from a formatted string and parse
the remainder as an integer. -/
def stripParse (s : String) : ℕ :=
  parseDigits (s.data.filter fun c => decide (c ≠ ',') && decide (c ≠ '₹'))

/-! ## Recurrences for the fuelled definitions -/

theorem natToCharsGo_congr :
    ∀ fuel fuel' n, n < fuel → n < fuel' →
      natToCharsGo fuel n = natToCharsGo fuel' n := by
  intro fuel
  induction fuel with
  | zero => intro fuel' n h _; omega
  | succ f ih =>
    intro fuel' n h h'
    cases fuel' with
    | zero => omega
    | succ f' =>
      by_cases h10 : n < 10
      · simp [natToCharsGo, h10]
      · have hd : n / 10 < n := Nat.div_lt_self (by omega) (by omega)
        simp only [natToCharsGo, if_neg h10]
        rw [ih f' (n / 10) (by omega) (by omega)]

theorem natToChars_eq (n : ℕ) :
    natToChars n =
      if n < 10 then [digitChar n]
      else natToChars (n / 10) ++ [digitChar (n % 10)] := by
  show natToCharsGo (n + 1) n = _
  by_cases h10 : n < 10
  · simp [natToCharsGo, h10]
  · have hd : n / 10 < n := Nat.div_lt_self (by omega) (by omega)
    simp only [natToCharsGo, if_neg h10, if_neg h10]
    rw [natToCharsGo_congr n (n / 10 + 1) (n / 10) hd (by omega)]
    rfl

theorem groupRestGo_congr :
    ∀ fuel fuel' (rest : List Char), rest.length ≤ fuel → rest.length ≤ fuel' →
      groupRestGo fuel rest = groupRestGo fuel' rest := by
  intro fuel
  induction fuel with
  | zero =>
    intro fuel' rest h _
    have hr : rest = [] := List.eq_nil_of_length_eq_zero (by omega)
    cases fuel' <;> simp [groupRestGo, hr]
  | succ f ih =>
    intro fuel' rest h h'
    cases fuel' with
    | zero =>
      have hr : rest = [] := List.eq_nil_of_length_eq_zero (by omega)
      simp [groupRestGo, hr]
    | succ f' =>
      by_cases h2 : rest.length > 2
      · have ht : (rest.take (rest.length - 2)).length = rest.length - 2 := by
          rw [List.length_take]; omega
        simp only [groupRestGo, if_pos h2]
        rw [ih f' (rest.take (rest.length - 2)) (by omega) (by omega)]
      · simp [groupRestGo, h2]

theorem groupRest_eq (rest : List Char) :
    groupRest rest =
      if rest.length > 2 then
        groupRest (rest.take (rest.length - 2)) ++ [rest.drop (rest.length - 2)]
      else if rest = [] then [] else [rest] := by
  by_cases h2 : rest.length > 2
  · obtain ⟨m, hm⟩ : ∃ m, rest.length = m + 1 := ⟨rest.length - 1, by omega⟩
    have ht : (rest.take (rest.length - 2)).length = rest.length - 2 := by
      rw [List.length_take]; omega
    have e1 : groupRest rest = groupRestGo (m + 1) rest := by
      show groupRestGo rest.length rest = _
      rw [hm]
    have e2 : groupRestGo (m + 1) rest =
        groupRestGo m (rest.take (rest.length - 2)) ++
          [rest.drop (rest.length - 2)] := by
      simp only [groupRestGo]
      rw [if_pos h2]
    have e3 : groupRestGo m (rest.take (rest.length - 2)) =
        groupRest (rest.take (rest.length - 2)) := by
      show _ = groupRestGo (rest.take (rest.length - 2)).length
        (rest.take (rest.length - 2))
      exact groupRestGo_congr m _ _ (by omega) le_rfl
    rw [if_pos h2, e1, e2, e3]
  · by_cases hr : rest = []
    · simp [hr, groupRest, groupRestGo]
    · obtain ⟨m, hm⟩ : ∃ m, rest.length = m + 1 := by
        have : rest.length ≠ 0 := fun h0 => hr (List.eq_nil_of_length_eq_zero h0)
        exact ⟨rest.length - 1, by omega⟩
      have e1 : groupRest rest = groupRestGo (m + 1) rest := by
        show groupRestGo rest.length rest = _
        rw [hm]
      have e2 : groupRestGo (m + 1) rest = [rest] := by
        simp only [groupRestGo]
        rw [if_neg h2, if_neg hr]
      rw [if_neg h2, if_neg hr, e1, e2]

/-! ## List helper lemmas -/

theorem intercalate_singleton {α : Type} (sep : List α) (a : List α) :
    List.intercalate sep [a] = a := by
  simp [List.intercalate]

theorem intercalate_cons {α : Type} (sep a : List α) (l : List (List α))
    (h : l ≠ []) :
    List.intercalate sep (a :: l) = a ++ sep ++ List.intercalate sep l := by
  obtain ⟨b, t, rfl⟩ := List.exists_cons_of_ne_nil h
  simp [List.intercalate, List.intersperse_cons_cons, List.append_assoc]

theorem intercalate_concat {α : Type} (sep b : List α) (A : List (List α))
    (h : A ≠ []) :
    List.intercalate sep (A ++ [b]) = List.intercalate sep A ++ sep ++ b := by
  induction A with
  | nil => cases h rfl
  | cons a t ih =>
    cases t with
    | nil => simp [intercalate_cons, intercalate_singleton]
    | cons c u =>
      rw [List.cons_append, intercalate_cons sep a ((c :: u) ++ [b]) (by simp),
        ih (by simp), intercalate_cons sep a (c :: u) (by simp)]
      simp [List.append_assoc]

/-! ## Properties of the grouping loop -/

theorem groupRest_spec :
    ∀ fuel (rest : List Char), rest.length ≤ fuel →
      (groupRest rest).flatten = rest ∧
      (∀ g ∈ groupRest rest, g ≠ [] ∧ g.length ≤ 2) ∧
      (rest ≠ [] → groupRest rest ≠ []) := by
  intro fuel
  induction fuel with
  | zero =>
    intro rest h
    have hr : rest = [] := List.eq_nil_of_length_eq_zero (by omega)
    subst hr
    rw [groupRest_eq]
    simp
  | succ f ih =>
    intro rest h
    rw [groupRest_eq]
    by_cases h2 : rest.length > 2
    · rw [if_pos h2]
      have ht : (rest.take (rest.length - 2)).length = rest.length - 2 := by
        rw [List.length_take]; omega
      have hd : (rest.drop (rest.length - 2)).length = 2 := by
        rw [List.length_drop]; omega
      obtain ⟨hflat, hgrp, _⟩ := ih (rest.take (rest.length - 2)) (by omega)
      refine ⟨?_, ?_, fun _ => by simp⟩
      · rw [List.flatten_append, hflat]
        simp [List.take_append_drop]
      · intro g hg
        rcases List.mem_append.mp hg with hg1 | hg1
        · exact hgrp g hg1
        · have : g = rest.drop (rest.length - 2) := by simpa using hg1
          subst this
          exact ⟨fun hnil => by simp [hnil] at hd, by omega⟩
    · rw [if_neg h2]
      by_cases hr : rest = []
      · simp [hr]
      · rw [if_neg hr]
        refine ⟨by simp, ?_, fun _ => by simp⟩
        intro g hg
        have : g = rest := by simpa using hg
        subst this
        exact ⟨hr, by omega⟩

theorem groupRest_flatten (rest : List Char) : (groupRest rest).flatten = rest :=
  (groupRest_spec rest.length rest le_rfl).1

theorem groupRest_groups (rest : List Char) :
    ∀ g ∈ groupRest rest, g ≠ [] ∧ g.length ≤ 2 :=
  (groupRest_spec rest.length rest le_rfl).2.1

theorem groupRest_ne_nil {rest : List Char} (h : rest ≠ []) : groupRest rest ≠ [] :=
  (groupRest_spec rest.length rest le_rfl).2.2 h

/-! ## Properties of the decimal string -/

theorem digitChar_isDigit {d : ℕ} (h : d < 10) : (digitChar d).isDigit = true := by
  interval_cases d <;> decide

theorem digitChar_toNat {d : ℕ} (h : d < 10) : (digitChar d).toNat = 48 + d := by
  interval_cases d <;> decide

theorem natToChars_digits (n : ℕ) : ∀ c ∈ natToChars n, c.isDigit = true := by
  induction n using Nat.strong_induction_on with
  | _ n ih =>
    rw [natToChars_eq]
    by_cases h : n < 10
    · rw [if_pos h]
      intro c hc
      have : c = digitChar n := by simpa using hc
      subst this
      exact digitChar_isDigit h
    · rw [if_neg h]
      intro c hc
      rcases List.mem_append.mp hc with h1 | h1
      · exact ih (n / 10) (Nat.div_lt_self (by omega) (by omega)) c h1
      · have : c = digitChar (n % 10) := by simpa using h1
        subst this
        exact digitChar_isDigit (Nat.mod_lt _ (by omega))

theorem natToChars_ne_nil (n : ℕ) : natToChars n ≠ [] := by
  rw [natToChars_eq]
  split <;> simp

theorem parseDigits_foldl (n : ℕ) :
    ∀ a, List.foldl (fun a c => 10 * a + (c.toNat - 48)) a (natToChars n) =
      a * 10 ^ (natToChars n).length + n := by
  induction n using Nat.strong_induction_on with
  | _ n ih =>
    intro a
    rw [natToChars_eq]
    by_cases h : n < 10
    · rw [if_pos h]
      simp [List.foldl, digitChar_toNat h]
      omega
    · rw [if_neg h]
      rw [List.foldl_append, ih (n / 10) (Nat.div_lt_self (by omega) (by omega)) a]
      simp only [List.foldl, digitChar_toNat (Nat.mod_lt n (by omega)),
        List.length_append, List.length_cons, List.length_nil]
      rw [pow_succ]
      have hmod : 10 * (n / 10) + n % 10 = n := Nat.div_add_mod n 10
      generalize (natToChars (n / 10)).length = L
      generalize hB : a * 10 ^ L = B
      rw [← Nat.mul_assoc, hB]
      omega

theorem parseDigits_natToChars (n : ℕ) : parseDigits (natToChars n) = n := by
  have := parseDigits_foldl n 0
  simpa [parseDigits] using this

/-! ## Rounding lemmas -/

theorem pyRound_intCast (m : ℤ) : pyRound (m : ℚ) = m := by
  simp [pyRound, Int.floor_intCast]

theorem pyRound_nonneg {q : ℚ} (h : 0 ≤ q) : 0 ≤ pyRound q := by
  have hf : (0 : ℤ) ≤ ⌊q⌋ := Int.le_floor.mpr (by exact_mod_cast h)
  simp only [pyRound]
  split
  · exact hf
  · split
    · omega
    · split <;> omega

theorem pyIntStr_of_nonneg {m : ℤ} (h : 0 ≤ m) :
    pyIntStr m = natToChars m.toNat := by
  rw [pyIntStr, if_neg (not_lt.mpr h)]

theorem pyIntStr_of_neg {m : ℤ} (h : m < 0) :
    pyIntStr m = '-' :: natToChars m.natAbs := by
  rw [pyIntStr, if_pos h]

/-! ## Characters that survive the strip -/

theorem isDigit_ne_comma {c : Char} (h : c.isDigit = true) : c ≠ ',' := by
  rintro rfl
  exact absurd h (by decide)

theorem isDigit_ne_glyph {c : Char} (h : c.isDigit = true) : c ≠ '₹' := by
  rintro rfl
  exact absurd h (by decide)

theorem filter_intercalate (p : Char → Bool) (gs : List (List Char))
    (hp : p ',' = false) (hall : ∀ g ∈ gs, ∀ c ∈ g, p c = true) :
    (List.intercalate [','] gs).filter p = gs.flatten := by
  induction gs with
  | nil => simp [List.intercalate]
  | cons g t ih =>
    cases t with
    | nil =>
      rw [intercalate_singleton]
      rw [List.filter_eq_self.mpr (fun c hc => hall g (by simp) c hc)]
      simp
    | cons g2 t2 =>
      rw [intercalate_cons _ _ _ (by simp), List.filter_append, List.filter_append]
      rw [List.filter_eq_self.mpr (fun c hc => hall g (by simp) c hc)]
      have hcomma : List.filter p [','] = [] := by simp [List.filter, hp]
      rw [hcomma, ih (fun g' hg' => hall g' (by simp [hg']))]
      simp

/-! ## Cumulative sum lemmas -/

theorem cumsumFrom_get? :
    ∀ (l : List ℚ) (acc : ℚ) (i : ℕ), i < l.length →
      (cumsumFrom acc l)[i]? = some (acc + (l.take (i + 1)).sum) := by
  intro l
  induction l with
  | nil => intro acc i hi; simp at hi
  | cons x xs ih =>
    intro acc i hi
    cases i with
    | zero => simp [cumsumFrom]
    | succ j =>
      have hj : j < xs.length := by simpa using hi
      simp only [cumsumFrom, List.getElem?_cons_succ]
      rw [ih (acc + x) j hj]
      simp [List.sum_cons, add_assoc]

theorem cumsumFrom_getLast? :
    ∀ (l : List ℚ), l ≠ [] → ∀ acc : ℚ,
      (cumsumFrom acc l).getLast? = some (acc + l.sum) := by
  intro l
  induction l with
  | nil => intro h; cases h rfl
  | cons x xs ih =>
    intro _ acc
    cases xs with
    | nil => simp [cumsumFrom]
    | cons y ys =>
      have e1 : cumsumFrom acc (x :: y :: ys) =
          (acc + x) :: cumsumFrom (acc + x) (y :: ys) := rfl
      have e2 : cumsumFrom (acc + x) (y :: ys) =
          (acc + x + y) :: cumsumFrom (acc + x + y) ys := rfl
      rw [e1, e2, List.getLast?_cons_cons, ← e2, ih (by simp) (acc + x)]
      simp only [List.sum_cons, Option.some.injEq]
      ring

/-- The comma-delimited group structure of a formatted digit string: the
groups are nonempty, concatenate back to the input, the last has at most
three characters and every earlier one at most two. -/
theorem inrFormat_groups (s : List Char) (hs : s ≠ []) :
    ∃ groups : List (List Char),
      inrFormat s = List.intercalate [','] groups ∧
      groups ≠ [] ∧
      groups.flatten = s ∧
      (∀ g ∈ groups, g ≠ []) ∧
      (∀ g ∈ groups.dropLast, g.length ≤ 2) ∧
      (∀ g, groups.getLast? = some g → g.length ≤ 3) := by
  by_cases h3 : s.length > 3
  · refine ⟨groupRest (s.take (s.length - 3)) ++ [s.drop (s.length - 3)],
      ?_, by simp, ?_, ?_, ?_, ?_⟩
    · have hrest : s.take (s.length - 3) ≠ [] := by
        intro h
        have := congrArg List.length h
        rw [List.length_take] at this
        simp at this
        omega
      rw [inrFormat, if_pos h3,
        intercalate_concat [','] _ _ (groupRest_ne_nil hrest)]
      simp [List.append_assoc]
    · rw [List.flatten_append, groupRest_flatten]
      simp [List.take_append_drop]
    · intro g hg
      rcases List.mem_append.mp hg with hg1 | hg1
      · exact (groupRest_groups _ g hg1).1
      · have hgd : g = s.drop (s.length - 3) := by simpa using hg1
        subst hgd
        intro hnil
        have := congrArg List.length hnil
        rw [List.length_drop] at this
        simp at this
        omega
    · rw [List.dropLast_concat]
      exact fun g hg => (groupRest_groups _ g hg).2
    · rw [List.getLast?_concat]
      intro g hg
      have hgd : s.drop (s.length - 3) = g := by simpa using hg
      subst hgd
      rw [List.length_drop]
      omega
  · refine ⟨[s], ?_, by simp, by simp, ?_, by simp, ?_⟩
    · rw [inrFormat, if_neg h3, intercalate_singleton]
    · intro g hg
      have hgs : g = s := by simpa using hg
      subst hgs
      exact hs
    · intro g hg
      have hgs : s = g := by simpa using hg
      subst hgs
      omega

/-- C4: for every non-negative amount, the digit part of `format_inr` splits
at the commas into nonempty digit groups, of which the rightmost has at most
three digits and every other one at most two. -/
theorem c4_grouping (q : ℚ) (hq : 0 ≤ q) :
    ∃ groups : List (List Char),
      (format_inr q).data = '₹' :: List.intercalate [','] groups ∧
      groups ≠ [] ∧
      (∀ g ∈ groups, g ≠ [] ∧ ∀ c ∈ g, c.isDigit = true) ∧
      (∀ g ∈ groups.dropLast, g.length ≤ 2) ∧
      (∀ g, groups.getLast? = some g → g.length ≤ 3) := by
  have hm : 0 ≤ pyRound q := pyRound_nonneg hq
  have hstr : pyIntStr (pyRound q) = natToChars (pyRound q).toNat :=
    pyIntStr_of_nonneg hm
  obtain ⟨groups, he, hne, hflat, hgne, hdl, hlast⟩ :=
    inrFormat_groups (pyIntStr (pyRound q))
      (by rw [hstr]; exact natToChars_ne_nil _)
  refine ⟨groups, ?_, hne, ?_, hdl, hlast⟩
  · show '₹' :: inrFormat (pyIntStr (pyRound q)) = _
    rw [he]
  · intro g hg
    refine ⟨hgne g hg, fun c hc => ?_⟩
    have hmem : c ∈ groups.flatten := List.mem_flatten.mpr ⟨g, hg, hc⟩
    rw [hflat, hstr] at hmem
    exact natToChars_digits _ c hmem

/-- C4 witness: the grouping property at the concrete amount 12345. -/
theorem c4_grouping_witness :
    (0 : ℚ) ≤ 12345 ∧
    ∃ groups : List (List Char),
      (format_inr 12345).data = '₹' :: List.intercalate [','] groups ∧
      groups ≠ [] ∧
      (∀ g ∈ groups, g ≠ [] ∧ ∀ c ∈ g, c.isDigit = true) ∧
      (∀ g ∈ groups.dropLast, g.length ≤ 2) ∧
      (∀ g, groups.getLast? = some g → g.length ≤ 3) :=
  ⟨by norm_num, c4_grouping 12345 (by norm_num)⟩

/-- C5: for every non-negative amount, removing commas and the currency glyph
from `format_inr` and parsing the remaining digits yields the rounded
amount. -/
theorem c5_roundtrip (q : ℚ) (hq : 0 ≤ q) :
    (stripParse (format_inr q) : ℤ) = pyRound q := by
  have hm : 0 ≤ pyRound q := pyRound_nonneg hq
  have hstr : pyIntStr (pyRound q) = natToChars (pyRound q).toNat :=
    pyIntStr_of_nonneg hm
  obtain ⟨groups, he, hne, hflat, hgne, hdl, hlast⟩ :=
    inrFormat_groups (pyIntStr (pyRound q))
      (by rw [hstr]; exact natToChars_ne_nil _)
  have hdig : ∀ g ∈ groups, ∀ c ∈ g,
      (decide (c ≠ ',') && decide (c ≠ '₹')) = true := by
    intro g hg c hc
    have hmem : c ∈ groups.flatten := List.mem_flatten.mpr ⟨g, hg, hc⟩
    rw [hflat, hstr] at hmem
    have hcd := natToChars_digits _ c hmem
    simp [isDigit_ne_comma hcd, isDigit_ne_glyph hcd]
  have hdata : (format_inr q).data = '₹' :: inrFormat (pyIntStr (pyRound q)) :=
    rfl
  rw [stripParse, hdata, he]
  rw [List.filter_cons,
    if_neg (by decide :
      ¬((decide (('₹' : Char) ≠ ',') && decide (('₹' : Char) ≠ '₹')) = true))]
  rw [filter_intercalate _ _ (by decide) hdig, hflat, hstr,
    parseDigits_natToChars]
  exact Int.toNat_of_nonneg hm

/-- C5 witness: the round trip at the concrete amount 1234567. -/
theorem c5_roundtrip_witness :
    (0 : ℚ) ≤ 1234567 ∧
    (stripParse (format_inr 1234567) : ℤ) = pyRound 1234567 :=
  ⟨by norm_num, c5_roundtrip 1234567 (by norm_num)⟩

/-- C10 counterexample: the claimed value of `format_inr (-1234567)` is not
what the code produces (the code yields the string with a bare minus sign as
the leftmost group). -/
theorem c10_negative_format_counterexample :
    format_inr (-1234567) ≠ "₹-1,12,34,567" := by
  have h : pyRound (-1234567 : ℚ) = -1234567 := by norm_num [pyRound]
  simp only [format_inr, h]
  decide

/-- C10 (amended): for negative amounts the minus sign follows the glyph and
is treated as a digit by the grouping loop; concretely
`format_inr (-12345) = "₹-,12,345"` and
`format_inr (-1234567) = "₹-,12,34,567"`. -/
theorem c10_negative_format :
    format_inr (-12345) = "₹-,12,345" ∧
    format_inr (-1234567) = "₹-,12,34,567" ∧
    ∀ q : ℚ, pyRound q < 0 → ∃ r, (format_inr q).data = '₹' :: '-' :: r := by
  refine ⟨?_, ?_, ?_⟩
  · have h : pyRound (-12345 : ℚ) = -12345 := by norm_num [pyRound]
    simp only [format_inr, h]
    decide
  · have h : pyRound (-1234567 : ℚ) = -1234567 := by norm_num [pyRound]
    simp only [format_inr, h]
    decide
  · intro q hq
    have hstr : pyIntStr (pyRound q) = '-' :: natToChars (pyRound q).natAbs :=
      pyIntStr_of_neg hq
    obtain ⟨groups, he, hne, hflat, hgne, hdl, hlast⟩ :=
      inrFormat_groups (pyIntStr (pyRound q)) (by rw [hstr]; simp)
    obtain ⟨g, t, hgt⟩ := List.exists_cons_of_ne_nil hne
    have hgnil : g ≠ [] := hgne g (by rw [hgt]; simp)
    obtain ⟨c, g', rfl⟩ := List.exists_cons_of_ne_nil hgnil
    have hc : c = '-' := by
      have h2 := hflat
      rw [hgt, hstr] at h2
      simp only [List.flatten_cons, List.cons_append, List.cons.injEq] at h2
      exact h2.1
    subst hc
    cases t with
    | nil =>
      refine ⟨g', ?_⟩
      have e : inrFormat (pyIntStr (pyRound q)) = '-' :: g' := by
        rw [he, hgt, intercalate_singleton]
      show '₹' :: inrFormat (pyIntStr (pyRound q)) = _
      rw [e]
    | cons g2 t2 =>
      refine ⟨g' ++ [','] ++ List.intercalate [','] (g2 :: t2), ?_⟩
      have e : inrFormat (pyIntStr (pyRound q)) =
          ('-' :: g') ++ [','] ++ List.intercalate [','] (g2 :: t2) := by
        rw [he, hgt, intercalate_cons _ _ _ (by simp)]
      show '₹' :: inrFormat (pyIntStr (pyRound q)) = _
      rw [e]
      simp [List.append_assoc]

/-- C1: the loan amortization formulas of src/Home.py lines 91-96: the
annuity formula for a positive rate, straight-line payoff for rate zero, and
the monthly payment as one twelfth of the annual payment. -/
theorem c1_loan_amortization (r loan : ℚ) (n : ℕ) (hn : 1 ≤ n) :
    (0 < r →
      annual_payment r loan n = (loan * r) / (1 - (1 + r) ^ (-(n : ℤ)))) ∧
    (r = 0 → annual_payment r loan n = loan / n) ∧
    monthly_payment (annual_payment r loan n) = annual_payment r loan n / 12 := by
  refine ⟨fun hr => ?_, fun hr => ?_, rfl⟩
  · rw [annual_payment, if_pos hr]
  · rw [annual_payment, if_neg (by rw [hr]; exact lt_irrefl 0)]

/-- C1 witness: amortization at rate 1/10, loan 100, term 2 years. -/
theorem c1_loan_amortization_witness :
    (0 < (1 / 10 : ℚ) →
      annual_payment (1 / 10) 100 2 =
        (100 * (1 / 10)) / (1 - (1 + 1 / 10) ^ (-((2 : ℕ) : ℤ)))) ∧
    ((1 / 10 : ℚ) = 0 → annual_payment (1 / 10) 100 2 = 100 / ((2 : ℕ) : ℚ)) ∧
    monthly_payment (annual_payment (1 / 10) 100 2) =
      annual_payment (1 / 10) 100 2 / 12 :=
  c1_loan_amortization (1 / 10) 100 2 (by norm_num)

/-- C2: the cash-flow sequence is the initial outlay followed by n equal
annual incomes, the cumulative series is its running prefix sum, and the
final cumulative value is the sum identity. -/
theorem c2_cash_flow_series (tc ai : ℚ) (n : ℕ) (hn : 1 ≤ n) :
    cash_flows tc ai n = [-tc] ++ List.replicate n ai ∧
    (cash_flows tc ai n).length = n + 1 ∧
    (∀ i, i < n + 1 →
      (cumulative_cash_flow (cash_flows tc ai n))[i]? =
        some (((cash_flows tc ai n).take (i + 1)).sum)) ∧
    (cumulative_cash_flow (cash_flows tc ai n)).getLast? =
      some (-tc + n * ai) := by
  refine ⟨rfl, by simp [cash_flows], ?_, ?_⟩
  · intro i hi
    have hlen : i < (cash_flows tc ai n).length := by simp [cash_flows]; omega
    have := cumsumFrom_get? (cash_flows tc ai n) 0 i hlen
    simpa [cumulative_cash_flow] using this
  · have := cumsumFrom_getLast? (cash_flows tc ai n) (by simp [cash_flows]) 0
    rw [cumulative_cash_flow, this]
    have hsum : (cash_flows tc ai n).sum = -tc + n * ai := by
      simp [cash_flows, List.sum_replicate, nsmul_eq_mul]
    rw [hsum]
    norm_num

/-- C2 witness: the cash-flow series at total cost 7, annual income 2, term
3 years. -/
theorem c2_cash_flow_series_witness :
    cash_flows 7 2 3 = [-(7 : ℚ)] ++ List.replicate 3 2 ∧
    (cash_flows 7 2 3).length = 3 + 1 ∧
    (∀ i, i < 3 + 1 →
      (cumulative_cash_flow (cash_flows 7 2 3))[i]? =
        some (((cash_flows 7 2 3).take (i + 1)).sum)) ∧
    (cumulative_cash_flow (cash_flows 7 2 3)).getLast? =
      some (-(7 : ℚ) + (3 : ℕ) * 2) :=
  c2_cash_flow_series 7 2 3 (by norm_num)

/-- C3: the ROI guard of src/Home.py line 103: the ratio times 100 when the
total cost is nonzero, and exactly 0 when it is zero. -/
theorem c3_roi_guard (ai tc : ℚ) :
    (tc ≠ 0 → roi ai tc = (ai / tc) * 100) ∧ (tc = 0 → roi ai tc = 0) := by
  constructor
  · intro h
    rw [roi, if_pos h]
  · intro h
    rw [roi, if_neg (by simp [h])]

/-- C6: the Annual Net Income metric (src/Home.py line 142) is rendered with
the builtin `format`, not with `format_inr`: at the amount 22030479 the
displayed string is the bare decimal, with no glyph and no grouping. -/
theorem c6_annual_net_income_display_bug :
    annualNetIncomeDisplay 22030479 = "22030479" ∧
    format_inr 22030479 = "₹2,20,30,479" ∧
    annualNetIncomeDisplay 22030479 ≠ format_inr 22030479 := by
  have h : pyRound (22030479 : ℚ) = 22030479 := by norm_num [pyRound]
  have h2 : format_inr 22030479 = "₹2,20,30,479" := by
    simp only [format_inr, h]
    decide
  refine ⟨by decide, h2, ?_⟩
  rw [h2]
  decide

/-- C7: the revenue formulas of src/Home.py lines 76-78, and their values at
the default inputs 5500 kWh, rate 3.11, 8 MW. -/
theorem c7_revenue (a r m : ℚ) :
    revenue_per_day a r m = a * r * m ∧
    revenue_per_year (revenue_per_day a r m) = revenue_per_day a r m * 365 ∧
    revenue_per_month (revenue_per_year (revenue_per_day a r m)) =
      revenue_per_year (revenue_per_day a r m) / 12 ∧
    revenue_per_day 5500 (311 / 100) 8 = 136840 ∧
    revenue_per_year (revenue_per_day 5500 (311 / 100) 8) = 49946600 := by
  refine ⟨rfl, rfl, rfl, by norm_num [revenue_per_day], ?_⟩
  norm_num [revenue_per_day, revenue_per_year]

/-- C8: `format_inr` is a total function: on every rational amount, zero and
negatives included, it returns a glyph-prefixed string. -/
theorem c8_formatter_total :
    (∀ q : ℚ, ∃ cs : List Char, format_inr q = String.mk ('₹' :: cs)) ∧
    format_inr 0 = "₹0" ∧
    format_inr (-98765) = "₹-,98,765" := by
  refine ⟨fun q => ⟨inrFormat (pyIntStr (pyRound q)), rfl⟩, ?_, ?_⟩
  · have h : pyRound (0 : ℚ) = 0 := by norm_num [pyRound]
    simp only [format_inr, h]
    decide
  · have h : pyRound (-98765 : ℚ) = -98765 := by norm_num [pyRound]
    simp only [format_inr, h]
    decide

/-- C9: the monthly and annual net-income metrics agree: in exact arithmetic
the annual income of src/Home.py line 100 is twelve times the monthly income
of line 99. -/
theorem c9_income_consistency (rpy wcm ap : ℚ) :
    annual_income rpy (working_cost_annual wcm) ap =
      12 * monthly_income (revenue_per_month rpy) wcm (monthly_payment ap) := by
  simp only [annual_income, working_cost_annual, monthly_income,
    revenue_per_month, monthly_payment]
  ring

end Solar
